import Mathlib

/-!
Verification of the Subtitle_Corrector batch-correction pipeline.

The repository consists of near-duplicate variants of a single React file
`src/App.js`.  The claims cite two variants:

* `src/src/App.js` (the "v3.0" variant): `BATCH_SIZE = 25`,
  `callGeminiWithRetry` with `retries = 5`, a linearly increasing 429
  backoff `20000 + i * 10000`, and a trailing `throw` after the retry loop.
* `src/unnamed/part_000` (the "稳健版" variant): `BATCH_SIZE = 75`,
  `callGeminiWithRetry` with `retries = 3`, a constant 20000 ms 429
  backoff, and no trailing `throw` (the function can fall off the loop and
  return `undefined`).

The shared pieces (response parsing into `fixedLinesMap`, the `safeBatch`
merge, the batch partition loop, the empty-input check) are textually
identical in both variants and are embedded once.  The two retry loops
differ and are embedded separately (`callGeminiWithRetry` for
`src/src/App.js`, `callGeminiWithRetryP0` for `src/unnamed/part_000`).

JavaScript string operations used by the source (`split` on a non-empty
separator, `join`, `trim`, `includes`) are embedded on `List Char`.
-/

namespace Subcorr

/-- Whitespace recognised by JavaScript `String.prototype.trim`.  We model
the ASCII whitespace characters plus NBSP and the BOM; the remaining
Unicode space characters of the JS definition never occur in the proofs
and are elided. -/
def isJsWhitespace (c : Char) : Bool :=
  c == ' ' || c == '\t' || c == '\n' || c == '\r' ||
  c == '\x0b' || c == '\x0c' || c == '\xa0' || c == '﻿'

/-- Drop leading JS whitespace from a character list. -/
def trimLeftC : List Char → List Char
  | [] => []
  | c :: cs => if isJsWhitespace c then trimLeftC cs else c :: cs

/-- JavaScript `s.trim()`: strip leading and trailing whitespace. -/
def jsTrim (s : String) : String :=
  String.mk ((trimLeftC (trimLeftC s.data).reverse).reverse)

/-- If `p` is a literal prefix of `l`, return the remainder, else `none`. -/
def dropPrefixC : List Char → List Char → Option (List Char)
  | [], cs => some cs
  | _ :: _, [] => none
  | p :: ps, c :: cs => if p == c then dropPrefixC ps cs else none

/-- Locate the first occurrence of `sep` in a character list, returning
the portion before it and the portion after it. -/
def splitFirstC (sep : List Char) : List Char → Option (List Char × List Char)
  | [] => none
  | c :: cs =>
    match dropPrefixC sep (c :: cs) with
    | some rem => some ([], rem)
    | none => (splitFirstC sep cs).map (fun p => (c :: p.1, p.2))

/-- JavaScript `s.includes(pat)`: `true` iff `pat` occurs in `s`
(`includes("")` is always `true`). -/
def jsIncludes (s pat : String) : Bool :=
  pat == "" || (splitFirstC pat.data s.data).isSome

/-- Fueled worker for JS `split` on a non-empty separator: repeatedly cut
at the leftmost occurrence of `sep`.  The fuel only bounds the recursion;
`fuel = cs.length` is always enough because each cut consumes at least one
character (see `splitSepGo_fuel_irrel`). -/
def splitSepGo (sep : List Char) : Nat → List Char → List (List Char)
  | _, [] => [[]]
  | 0, cs => [cs]
  | fuel + 1, c :: cs =>
    match dropPrefixC sep (c :: cs) with
    | some rem => [] :: splitSepGo sep fuel rem
    | none =>
      match splitSepGo sep fuel cs with
      | [] => [[c]]
      | h :: t => (c :: h) :: t

/-- JavaScript `s.split(sep)` for the non-empty separators used by the
source (`">>>"` and `"\n"`).  JS special-cases `split("")`, which the
source never calls; we return `[s]` there as Lean's `splitOn` does. -/
def jsSplit (s sep : String) : List String :=
  if sep = "" then [s]
  else (splitSepGo sep.data s.data.length s.data).map String.mk

/-- Worker for JS `Array.prototype.join` on character lists. -/
def joinSepC (sep : List Char) : List (List Char) → List Char
  | [] => []
  | [p] => p
  | p :: ps => p ++ sep ++ joinSepC sep ps

/-- JavaScript `parts.join(sep)`. -/
def jsJoin (sep : String) (parts : List String) : String :=
  String.mk (joinSepC sep.data (parts.map String.data))

/-- A subtitle entry as produced by the `srt-parser-2` decoder: an id, the
two timing fields and the text.  (The decoder also carries numeric
`startSeconds`/`endSeconds` fields; they are copied by the same object
spread as `id`/`startTime`/`endTime` and behave identically, so a
representative field set suffices.) -/
structure SubtitleEntry where
  id : String
  startTime : String
  endTime : String
  text : String
deriving DecidableEq

/-- One JS object-property assignment `m[k] = v` on the correction map:
later assignments overwrite earlier ones. -/
def mapInsert (m : String → Option String) (k v : String) : String → Option String :=
  fun q => if q = k then some v else m q

/-- One iteration of the `resultText.split("\n").forEach` loop building
`fixedLinesMap` (`src/src/App.js` lines 172-179, identical in
`src/unnamed/part_000` lines 149-156):

    if (line.includes(">>>")) {
      const parts = line.split(">>>");
      const idx = parts[0].trim();
      const txt = parts.slice(1).join(">>>").trim();
      fixedLinesMap[idx] = txt;
    }
-/
def parseLine (m : String → Option String) (line : String) : String → Option String :=
  if jsIncludes line ">>>" then
    mapInsert m (jsTrim ((jsSplit line ">>>").headD ""))
      (jsTrim (jsJoin ">>>" ((jsSplit line ">>>").drop 1)))
  else m

/-- The correction map built from a raw model response
(`src/src/App.js` lines 171-179).  A JS object literal is modelled as a
total function `String → Option String`; the looked-up keys are always
decimal strings `"1" .. "L"`, for which inherited `Object.prototype`
properties do not exist, so the plain-map model is faithful. -/
def fixedLinesMap (resultText : String) : String → Option String :=
  (jsSplit resultText "\n").foldl parseLine (fun _ => none)

/-- JavaScript `a || b` where `a` is an optional string (`undefined` maps
to `none`): the empty string is falsy and also falls back to `b`. -/
def jsOrElse (v : Option String) (dflt : String) : String :=
  match v with
  | none => dflt
  | some s => if s = "" then dflt else s

/-- Worker for the `safeBatch` merge, mirroring
`currentBatch.map((item, idx) => ({ ...item, text: fixedLinesMap[(idx+1).toString()] || item.text }))`
with the running 0-based index made explicit. -/
def safeBatchGo (m : String → Option String) : Nat → List SubtitleEntry → List SubtitleEntry
  | _, [] => []
  | idx, item :: rest =>
    { item with text := jsOrElse (m (toString (idx + 1))) item.text } ::
      safeBatchGo m (idx + 1) rest

/-- The reconciliation merge (`src/src/App.js` lines 181-187, identical in
`src/unnamed/part_000` lines 159-165). -/
def safeBatch (currentBatch : List SubtitleEntry) (m : String → Option String) :
    List SubtitleEntry :=
  safeBatchGo m 0 currentBatch

/-- The configured batch size of `src/src/App.js` (`const BATCH_SIZE = 25`;
the `part_000` variant uses 75 — the partition law is proved for every
positive batch size). -/
def BATCH_SIZE : Nat := 25

/-- Fueled worker for the batch partition loop

    for (let i = 0; i < srtArray.length; i += BATCH_SIZE) {
      const currentBatch = srtArray.slice(i, i + BATCH_SIZE);
      ... }

`slice(i, i + B)` of the remaining list is `take B`, and advancing `i` by
`B` leaves `drop B`.  Each loop iteration removes at least one element
when `0 < B`, so `fuel = l.length` always suffices. -/
def chunksGo (B : Nat) : Nat → List SubtitleEntry → List (List SubtitleEntry)
  | _, [] => []
  | 0, l => [l]
  | fuel + 1, l@(_ :: _) => l.take B :: chunksGo B fuel (l.drop B)

/-- The sequence of batches the orchestrator builds from the decoded
subtitle array (`src/src/App.js` lines 130-132). -/
def chunks (B : Nat) (l : List SubtitleEntry) : List (List SubtitleEntry) :=
  chunksGo B l.length l

/-- The per-batch body of the orchestrator loop in `src/src/App.js`
(lines 165-189), folded over the batch list.  The invoker is abstracted as
`responses : Nat → Except String String`, giving for each 0-based batch
number either the text `callGeminiWithRetry` returned or the error it
threw (the prompt contents do not influence the merge).  The second
component counts how many invoker calls were made.  A thrown error aborts
the remaining batches and discards the partial `processedArray`, as the
enclosing `try/catch` does. -/
def processBatches (responses : Nat → Except String String) :
    List (List SubtitleEntry) → Nat → Except String (List SubtitleEntry) × Nat
  | [], _ => (Except.ok [], 0)
  | b :: rest, k =>
    match responses k with
    | Except.error e => (Except.error e, 1)
    | Except.ok resultText =>
      if resultText = "" then (Except.error "API 返回数据格式无效", 1)
      else
        let merged := safeBatch b (fixedLinesMap resultText)
        match processBatches responses rest (k + 1) with
        | (Except.ok tail, n) => (Except.ok (merged ++ tail), n + 1)
        | (Except.error e, n) => (Except.error e, n + 1)

/-- The pipeline core of `processSrt` (`src/src/App.js` lines 120-197),
from the decoded `srtArray` onward.  The UI preconditions (API key, file,
transcript `alert` guards) and the log/progress side effects are
presentation-layer and elided.  The `resultText = ""` abort models the
`if (!resultText || typeof resultText !== "string") throw` guard at
lines 167-169: the guard fires exactly for the two falsy values the
invoker can resolve with — the empty string and `undefined` (a success
body whose first part lacks the `text` field, see `Outcome.success`) —
and both take the identical abort path with the identical message, so the
abstraction collapses them into the `""` case.  Returns the final
`processedArray` or the first error, paired with the number of invoker
calls made. -/
def processSrt (srtArray : List SubtitleEntry) (responses : Nat → Except String String) :
    Except String (List SubtitleEntry) × Nat :=
  if srtArray.length = 0 then (Except.error "SRT 文件为空", 0)
  else processBatches responses (chunks BATCH_SIZE srtArray) 0

/-- Outcome of one `fetch` attempt inside `callGeminiWithRetry`, as the
source discriminates it: HTTP 429, HTTP 503, another non-ok status with a
message, a 2xx body failing the `candidates`/`content`/`parts` check
(blocked/refused, with the reason the source would extract), a 2xx body
passing that check, or an exception thrown anywhere in the `try` block
(transport failure, JSON failure, or e.g. `parts[0].text` on an empty
`parts` array).  `success` carries the value of
`data.candidates[0].content.parts[0].text`, which is `undefined` (`none`)
when the first part exists but has no `text` field — the check at
`src/src/App.js` lines 86-91 does not inspect that field before line 92
returns it. -/
inductive Outcome where
  | rateLimited
  | overloaded
  | httpError (code : Nat) (msg : String)
  | refused (reason : String)
  | success (text : Option String)
  | netError (msg : String)
deriving DecidableEq

/-- Observable result of one `callGeminiWithRetry` run: the value the
function settles with (`Except.error` = the promise rejects with that
message), the sleeps performed as `(attempt index, milliseconds)` pairs in
order, and the number of `fetch` attempts made. -/
structure RunResult (α : Type) where
  result : α
  sleeps : List (Nat × Nat)
  attempts : Nat
deriving DecidableEq

/-- Worker for the `src/src/App.js` retry loop (lines 48-107), structurally
recursive on `rem`, the number of loop iterations still allowed; the
driver calls it with `i = 0, rem = retries`, so `rem = 0` is exactly the
loop exit `i ≥ retries`.  Branches, in source order:

* 429: sleep `20000 + i * 10000`, then `if (i === retries - 1) throw`
  (the thrown error is rethrown by the catch since `i` is the last index),
  else `continue`;
* 503: sleep 10000 and `continue` (no last-attempt check — on the last
  iteration the loop exits and the trailing `throw` at line 108 fires);
* other non-ok status / failed body check / transport exception: caught
  by the `catch`, which rethrows on the last attempt and otherwise sleeps
  5000 and retries;
* success: return `data.candidates[0].content.parts[0].text` as-is
  (line 92) — possibly `undefined` (`Except.ok none`) when the first part
  has no `text` field, a normal return without a generated text. -/
def callGeminiWithRetryGo (outcomes : Nat → Outcome) (retries : Nat) :
    Nat → Nat → RunResult (Except String (Option String))
  | _, 0 => ⟨Except.error "请求逻辑异常终止", [], 0⟩
  | i, rem + 1 =>
    match outcomes i with
    | Outcome.success t => ⟨Except.ok t, [], 1⟩
    | Outcome.rateLimited =>
      let w := 20000 + i * 10000
      if i = retries - 1 then ⟨Except.error "限流重试次数耗尽", [(i, w)], 1⟩
      else
        let r := callGeminiWithRetryGo outcomes retries (i + 1) rem
        ⟨r.result, (i, w) :: r.sleeps, r.attempts + 1⟩
    | Outcome.overloaded =>
      let r := callGeminiWithRetryGo outcomes retries (i + 1) rem
      ⟨r.result, (i, 10000) :: r.sleeps, r.attempts + 1⟩
    | Outcome.httpError code msg =>
      if i = retries - 1 then
        ⟨Except.error ("API 报错: " ++ toString code ++ " - " ++ msg), [], 1⟩
      else
        let r := callGeminiWithRetryGo outcomes retries (i + 1) rem
        ⟨r.result, (i, 5000) :: r.sleeps, r.attempts + 1⟩
    | Outcome.refused reason =>
      if i = retries - 1 then
        ⟨Except.error ("API 拒绝生成 (原因: " ++ reason ++ ")"), [], 1⟩
      else
        let r := callGeminiWithRetryGo outcomes retries (i + 1) rem
        ⟨r.result, (i, 5000) :: r.sleeps, r.attempts + 1⟩
    | Outcome.netError msg =>
      if i = retries - 1 then ⟨Except.error msg, [], 1⟩
      else
        let r := callGeminiWithRetryGo outcomes retries (i + 1) rem
        ⟨r.result, (i, 5000) :: r.sleeps, r.attempts + 1⟩

/-- `callGeminiWithRetry(fullPrompt, retries)` of `src/src/App.js`
(lines 38-109, default `retries = 5`), driven by the per-attempt transport
outcomes. -/
def callGeminiWithRetry (outcomes : Nat → Outcome) (retries : Nat := 5) :
    RunResult (Except String (Option String)) :=
  callGeminiWithRetryGo outcomes retries 0 retries

/-- Worker for the `src/unnamed/part_000` retry loop (lines 42-92).
Differences from the `src/src/App.js` variant: the 429 branch sleeps a
constant 20000 ms and never throws; the 503 branch sleeps 5000 ms; the
failed-body-check branch throws `"数据结构异常"`; and there is no
statement after the loop, so when the final iteration takes a `continue`
branch the function returns `undefined` — modelled as `Except.ok none`.
Its success branch is the same `parts[0].text` return as the other
variant and can likewise yield `undefined`. -/
def callGeminiWithRetryP0Go (outcomes : Nat → Outcome) (retries : Nat) :
    Nat → Nat → RunResult (Except String (Option String))
  | _, 0 => ⟨Except.ok none, [], 0⟩
  | i, rem + 1 =>
    match outcomes i with
    | Outcome.success t => ⟨Except.ok t, [], 1⟩
    | Outcome.rateLimited =>
      let r := callGeminiWithRetryP0Go outcomes retries (i + 1) rem
      ⟨r.result, (i, 20000) :: r.sleeps, r.attempts + 1⟩
    | Outcome.overloaded =>
      let r := callGeminiWithRetryP0Go outcomes retries (i + 1) rem
      ⟨r.result, (i, 5000) :: r.sleeps, r.attempts + 1⟩
    | Outcome.httpError code msg =>
      if i = retries - 1 then
        ⟨Except.error ("API 报错: " ++ toString code ++ " - " ++ msg), [], 1⟩
      else
        let r := callGeminiWithRetryP0Go outcomes retries (i + 1) rem
        ⟨r.result, (i, 5000) :: r.sleeps, r.attempts + 1⟩
    | Outcome.refused _ =>
      if i = retries - 1 then ⟨Except.error "数据结构异常", [], 1⟩
      else
        let r := callGeminiWithRetryP0Go outcomes retries (i + 1) rem
        ⟨r.result, (i, 5000) :: r.sleeps, r.attempts + 1⟩
    | Outcome.netError msg =>
      if i = retries - 1 then ⟨Except.error msg, [], 1⟩
      else
        let r := callGeminiWithRetryP0Go outcomes retries (i + 1) rem
        ⟨r.result, (i, 5000) :: r.sleeps, r.attempts + 1⟩

/-- `callGeminiWithRetry(fullPrompt, retries)` of `src/unnamed/part_000`
(lines 39-93, default `retries = 3`). -/
def callGeminiWithRetryP0 (outcomes : Nat → Outcome) (retries : Nat := 3) :
    RunResult (Except String (Option String)) :=
  callGeminiWithRetryP0Go outcomes retries 0 retries

/-- An entry with its `text` cleared, used to state that the pipeline
changes nothing but `text`. -/
def stripText (e : SubtitleEntry) : SubtitleEntry :=
  { e with text := "" }

/-- Sample entries standing in for decoded subtitle cues in witnesses. -/
def sampleA : SubtitleEntry :=
  ⟨"1", "00:00:01,000", "00:00:02,000", "原文一"⟩

/-- A second sample entry. -/
def sampleB : SubtitleEntry :=
  ⟨"2", "00:00:02,000", "00:00:03,000", "原文二"⟩

theorem dropPrefixC_length :
    ∀ (p l r : List Char), dropPrefixC p l = some r → l.length = p.length + r.length := by
  intro p
  induction p with
  | nil =>
    intro l r h
    simp [dropPrefixC] at h
    subst h
    simp
  | cons a ps ih =>
    intro l r h
    cases l with
    | nil => simp [dropPrefixC] at h
    | cons c cs =>
      simp only [dropPrefixC] at h
      split at h
      · have := ih cs r h
        simp only [List.length_cons]
        omega
      · exact absurd h (by simp)

theorem dropPrefixC_eq_append :
    ∀ (p l r : List Char), dropPrefixC p l = some r → l = p ++ r := by
  intro p
  induction p with
  | nil =>
    intro l r h
    simp [dropPrefixC] at h
    simp [h]
  | cons a ps ih =>
    intro l r h
    cases l with
    | nil => simp [dropPrefixC] at h
    | cons c cs =>
      simp only [dropPrefixC] at h
      split at h
      next heq =>
        have hac : a = c := by
          have := of_decide_eq_true (by simpa using heq)
          exact this.symm ▸ rfl
        subst hac
        simp [ih cs r h]
      · exact absurd h (by simp)

theorem splitSepGo_ne_nil (sep : List Char) (f : Nat) (cs : List Char) :
    splitSepGo sep f cs ≠ [] := by
  cases f with
  | zero => cases cs <;> simp [splitSepGo]
  | succ f =>
    cases cs with
    | nil => simp [splitSepGo]
    | cons c cs =>
      simp only [splitSepGo]
      cases dropPrefixC sep (c :: cs) with
      | some rem => simp
      | none =>
        cases splitSepGo sep f cs with
        | nil => simp
        | cons h t => simp

theorem sep_length_pos {sep : List Char} (hsep : sep ≠ []) : 1 ≤ sep.length := by
  cases sep with
  | nil => exact absurd rfl hsep
  | cons a t => simp

theorem splitSepGo_cons_some (sep : List Char) (f : Nat) (c : Char) (cs rem : List Char)
    (hd : dropPrefixC sep (c :: cs) = some rem) :
    splitSepGo sep (f + 1) (c :: cs) = [] :: splitSepGo sep f rem := by
  simp only [splitSepGo, hd]

theorem splitSepGo_cons_none (sep : List Char) (f : Nat) (c : Char) (cs : List Char)
    (hd : dropPrefixC sep (c :: cs) = none) :
    splitSepGo sep (f + 1) (c :: cs) =
      match splitSepGo sep f cs with
      | [] => [[c]]
      | h :: t => (c :: h) :: t := by
  simp only [splitSepGo, hd]

theorem splitSepGo_fuel_irrel (sep : List Char) (hsep : sep ≠ []) :
    ∀ f f' cs, cs.length ≤ f → cs.length ≤ f' → splitSepGo sep f cs = splitSepGo sep f' cs := by
  intro f
  induction f with
  | zero =>
    intro f' cs h _
    cases cs with
    | nil => cases f' <;> rfl
    | cons c cs => simp at h
  | succ f ih =>
    intro f' cs h h'
    cases cs with
    | nil => cases f' <;> rfl
    | cons c cs =>
      cases f' with
      | zero => simp at h'
      | succ f' =>
        cases hd : dropPrefixC sep (c :: cs) with
        | some rem =>
          have hlen := dropPrefixC_length sep (c :: cs) rem hd
          have hs := sep_length_pos hsep
          have h1 : rem.length ≤ f := by simp only [List.length_cons] at h hlen; omega
          have h2 : rem.length ≤ f' := by simp only [List.length_cons] at h' hlen; omega
          rw [splitSepGo_cons_some sep f c cs rem hd, splitSepGo_cons_some sep f' c cs rem hd,
            ih f' rem h1 h2]
        | none =>
          have h1 : cs.length ≤ f := by simp only [List.length_cons] at h; omega
          have h2 : cs.length ≤ f' := by simp only [List.length_cons] at h'; omega
          rw [splitSepGo_cons_none sep f c cs hd, splitSepGo_cons_none sep f' c cs hd,
            ih f' cs h1 h2]

theorem joinSepC_cons₂ (sep p q : List Char) (ps : List (List Char)) :
    joinSepC sep (p :: q :: ps) = p ++ sep ++ joinSepC sep (q :: ps) := rfl

theorem joinSepC_splitSepGo (sep : List Char) (hsep : sep ≠ []) :
    ∀ f cs, cs.length ≤ f → joinSepC sep (splitSepGo sep f cs) = cs := by
  intro f
  induction f with
  | zero =>
    intro cs h
    cases cs with
    | nil => rfl
    | cons c cs => simp at h
  | succ f ih =>
    intro cs h
    cases cs with
    | nil => rfl
    | cons c cs =>
      cases hd : dropPrefixC sep (c :: cs) with
      | some rem =>
        have hlen := dropPrefixC_length sep (c :: cs) rem hd
        have hs := sep_length_pos hsep
        have h1 : rem.length ≤ f := by simp only [List.length_cons] at h hlen; omega
        rw [splitSepGo_cons_some sep f c cs rem hd]
        cases hgo : splitSepGo sep f rem with
        | nil => exact absurd hgo (splitSepGo_ne_nil sep f rem)
        | cons hp t =>
          rw [joinSepC_cons₂]
          rw [← hgo, ih rem h1]
          simp [dropPrefixC_eq_append sep (c :: cs) rem hd]
      | none =>
        have h1 : cs.length ≤ f := by simp only [List.length_cons] at h; omega
        rw [splitSepGo_cons_none sep f c cs hd]
        cases hgo : splitSepGo sep f cs with
        | nil => exact absurd hgo (splitSepGo_ne_nil sep f cs)
        | cons hp t =>
          have hjoin : joinSepC sep (hp :: t) = cs := by rw [← hgo]; exact ih cs h1
          cases t with
          | nil =>
            simp only [joinSepC] at hjoin ⊢
            rw [hjoin]
          | cons q qs =>
            rw [joinSepC_cons₂] at hjoin ⊢
            simp [hjoin]

theorem splitSepGo_splitFirstC (sep : List Char) (hsep : sep ≠ []) :
    ∀ f cs b r, cs.length ≤ f → splitFirstC sep cs = some (b, r) →
      splitSepGo sep f cs = b :: splitSepGo sep r.length r := by
  intro f
  induction f with
  | zero =>
    intro cs b r h hs
    cases cs with
    | nil => simp [splitFirstC] at hs
    | cons c cs => simp at h
  | succ f ih =>
    intro cs b r h hs
    cases cs with
    | nil => simp [splitFirstC] at hs
    | cons c cs =>
      simp only [splitFirstC] at hs
      cases hd : dropPrefixC sep (c :: cs) with
      | some rem =>
        rw [hd] at hs
        simp only [Option.some.injEq, Prod.mk.injEq] at hs
        obtain ⟨rfl, rfl⟩ := hs
        have hlen := dropPrefixC_length sep (c :: cs) rem hd
        have hs' := sep_length_pos hsep
        have h1 : rem.length ≤ f := by simp only [List.length_cons] at h hlen; omega
        rw [splitSepGo_cons_some sep f c cs rem hd,
          splitSepGo_fuel_irrel sep hsep f rem.length rem h1 (le_refl _)]
      | none =>
        rw [hd] at hs
        simp only [Option.map_eq_some'] at hs
        obtain ⟨⟨b', r'⟩, h1, h2⟩ := hs
        simp only [Prod.mk.injEq] at h2
        obtain ⟨rfl, rfl⟩ := h2
        have hcs : cs.length ≤ f := by simp only [List.length_cons] at h; omega
        rw [splitSepGo_cons_none sep f c cs hd, ih cs b' r' hcs h1]

theorem safeBatchGo_length (m : String → Option String) :
    ∀ (b : List SubtitleEntry) (s : Nat), (safeBatchGo m s b).length = b.length := by
  intro b
  induction b with
  | nil => intro s; rfl
  | cons item rest ih => intro s; simp [safeBatchGo, ih (s + 1)]

theorem safeBatch_length (b : List SubtitleEntry) (m : String → Option String) :
    (safeBatch b m).length = b.length :=
  safeBatchGo_length m b 0

theorem safeBatchGo_get? (m : String → Option String) :
    ∀ (b : List SubtitleEntry) (s i : Nat),
      (safeBatchGo m s b).get? i =
        (b.get? i).map
          (fun item => { item with text := jsOrElse (m (toString (s + i + 1))) item.text }) := by
  intro b
  induction b with
  | nil => intro s i; simp [safeBatchGo]
  | cons item rest ih =>
    intro s i
    cases i with
    | zero => simp [safeBatchGo]
    | succ i =>
      simp only [safeBatchGo, List.get?_cons_succ]
      have harith : s + (i + 1) + 1 = s + 1 + i + 1 := by omega
      rw [harith]
      exact ih (s + 1) i

theorem safeBatchGo_strip (m : String → Option String) :
    ∀ (b : List SubtitleEntry) (s : Nat),
      (safeBatchGo m s b).map stripText = b.map stripText := by
  intro b
  induction b with
  | nil => intro s; rfl
  | cons item rest ih =>
    intro s
    simp only [safeBatchGo, List.map_cons, ih (s + 1)]
    rfl

theorem safeBatch_strip (b : List SubtitleEntry) (m : String → Option String) :
    (safeBatch b m).map stripText = b.map stripText :=
  safeBatchGo_strip m b 0

theorem chunksGo_nil_iff (B : Nat) :
    ∀ (f : Nat) (l : List SubtitleEntry), chunksGo B f l = [] ↔ l = [] := by
  intro f l
  cases f with
  | zero => cases l <;> simp [chunksGo]
  | succ f => cases l <;> simp [chunksGo]

theorem drop_length_le {B f : Nat} (hB : 0 < B) (c : SubtitleEntry)
    (cs : List SubtitleEntry) (h : (c :: cs).length ≤ f + 1) :
    ((c :: cs).drop B).length ≤ f := by
  simp only [List.length_cons] at h
  simp only [List.length_drop, List.length_cons]
  omega

theorem chunksGo_join (B : Nat) (hB : 0 < B) :
    ∀ (f : Nat) (l : List SubtitleEntry), l.length ≤ f → (chunksGo B f l).flatten = l := by
  intro f
  induction f with
  | zero =>
    intro l h
    cases l with
    | nil => rfl
    | cons c cs => simp at h
  | succ f ih =>
    intro l h
    cases l with
    | nil => rfl
    | cons c cs =>
      simp only [chunksGo, List.flatten_cons]
      rw [ih ((c :: cs).drop B) (drop_length_le hB c cs h)]
      exact List.take_append_drop B (c :: cs)

theorem chunksGo_length (B : Nat) (hB : 0 < B) :
    ∀ (f : Nat) (l : List SubtitleEntry), l.length ≤ f →
      (chunksGo B f l).length = (l.length + B - 1) / B := by
  intro f
  induction f with
  | zero =>
    intro l h
    cases l with
    | nil => simp [chunksGo, Nat.div_eq_of_lt (by omega : B - 1 < B)]
    | cons c cs => simp at h
  | succ f ih =>
    intro l h
    cases l with
    | nil => simp [chunksGo, Nat.div_eq_of_lt (by omega : B - 1 < B)]
    | cons c cs =>
      have hn : 1 ≤ (c :: cs).length := by simp
      simp only [chunksGo, List.length_cons]
      rw [ih ((c :: cs).drop B) (drop_length_le hB c cs h)]
      simp only [List.length_drop, List.length_cons]
      rcases le_or_lt (cs.length + 1) B with hle | hlt
      · have hz : cs.length + 1 - B = 0 := by omega
        rw [hz]
        rw [Nat.div_eq_of_lt (by omega : 0 + B - 1 < B)]
        rw [Nat.div_eq_of_lt_le (by omega : 1 * B ≤ cs.length + 1 + B - 1)
          (by omega : cs.length + 1 + B - 1 < (1 + 1) * B)]
      · have h1 : cs.length + 1 - B + B - 1 = cs.length := by omega
        have h2 : cs.length + 1 + B - 1 = cs.length + B := by omega
        rw [h1, h2, Nat.add_div_right cs.length hB]

theorem chunksGo_dropLast (B : Nat) (hB : 0 < B) :
    ∀ (f : Nat) (l : List SubtitleEntry), l.length ≤ f →
      ∀ c ∈ (chunksGo B f l).dropLast, c.length = B := by
  intro f
  induction f with
  | zero =>
    intro l h
    cases l with
    | nil => simp [chunksGo]
    | cons c cs => simp at h
  | succ f ih =>
    intro l h
    cases l with
    | nil => simp [chunksGo]
    | cons c cs =>
      simp only [chunksGo]
      by_cases hdrop : (c :: cs).drop B = []
      · rw [hdrop]
        simp [chunksGo]
      · have hne : chunksGo B f ((c :: cs).drop B) ≠ [] := by
          intro hc
          exact hdrop ((chunksGo_nil_iff B f _).mp hc)
        cases hrest : chunksGo B f ((c :: cs).drop B) with
        | nil => exact absurd hrest hne
        | cons r rs =>
          intro x hx
          simp only [List.dropLast_cons₂, List.mem_cons] at hx
          rcases hx with hx | hx
          · subst hx
            have hlen : B < (c :: cs).length := by
              by_contra hcon
              exact hdrop (List.drop_eq_nil_iff.mpr (by omega))
            simp only [List.length_cons] at hlen
            simp only [List.length_take, List.length_cons]
            omega
          · exact ih ((c :: cs).drop B) (drop_length_le hB c cs h) x
              (by rw [hrest]; exact hx)

theorem chunksGo_getLast (B : Nat) (hB : 0 < B) :
    ∀ (f : Nat) (l : List SubtitleEntry), l ≠ [] → l.length ≤ f →
      ((chunksGo B f l).getLast?).map List.length =
        some (if l.length % B = 0 then B else l.length % B) := by
  intro f
  induction f with
  | zero =>
    intro l hne h
    cases l with
    | nil => exact absurd rfl hne
    | cons c cs => simp at h
  | succ f ih =>
    intro l hne h
    cases l with
    | nil => exact absurd rfl hne
    | cons c cs =>
      simp only [chunksGo]
      by_cases hdrop : (c :: cs).drop B = []
      · have hle : (c :: cs).length ≤ B := List.drop_eq_nil_iff.mp hdrop
        rw [hdrop]
        simp only [chunksGo, List.getLast?_singleton, Option.map_some', List.length_take]
        have hmin : min B (c :: cs).length = (c :: cs).length := by omega
        rw [hmin]
        rcases Nat.lt_or_ge (c :: cs).length B with hlt | hge
        · rw [Nat.mod_eq_of_lt hlt]
          have hz : ¬ (c :: cs).length = 0 := by simp
          simp [hz]
        · have heq : (c :: cs).length = B := by omega
          rw [heq]
          simp [Nat.mod_self]
      · have hne2 : chunksGo B f ((c :: cs).drop B) ≠ [] := by
          intro hc
          exact hdrop ((chunksGo_nil_iff B f _).mp hc)
        cases hrest : chunksGo B f ((c :: cs).drop B) with
        | nil => exact absurd hrest hne2
        | cons r rs =>
          rw [List.getLast?_cons_cons]
          rw [← hrest]
          have hgt : B < (c :: cs).length := by
            by_contra hcon
            exact hdrop (List.drop_eq_nil_iff.mpr (by omega))
          rw [ih ((c :: cs).drop B) hdrop (drop_length_le hB c cs h)]
          have hmod : (c :: cs).length % B = ((c :: cs).drop B).length % B := by
            simp only [List.length_drop]
            have : (c :: cs).length = ((c :: cs).length - B) + B := by omega
            conv_lhs => rw [this]
            rw [Nat.add_mod_right]
          rw [hmod]

theorem chunks_flatten (B : Nat) (hB : 0 < B) (l : List SubtitleEntry) :
    (chunks B l).flatten = l :=
  chunksGo_join B hB l.length l (le_refl _)

theorem processBatches_cons_err (responses : Nat → Except String String)
    (b : List SubtitleEntry) (rest : List (List SubtitleEntry)) (k : Nat) (e : String)
    (hr : responses k = Except.error e) :
    processBatches responses (b :: rest) k = (Except.error e, 1) := by
  simp only [processBatches, hr]

theorem processBatches_cons_empty (responses : Nat → Except String String)
    (b : List SubtitleEntry) (rest : List (List SubtitleEntry)) (k : Nat)
    (hr : responses k = Except.ok "") :
    processBatches responses (b :: rest) k = (Except.error "API 返回数据格式无效", 1) := by
  simp [processBatches, hr]

theorem processBatches_cons_ok (responses : Nat → Except String String)
    (b : List SubtitleEntry) (rest : List (List SubtitleEntry)) (k : Nat) (t : String)
    (ht : t ≠ "") (hr : responses k = Except.ok t) :
    processBatches responses (b :: rest) k =
      (match processBatches responses rest (k + 1) with
        | (Except.ok tail, n) => (Except.ok (safeBatch b (fixedLinesMap t) ++ tail), n + 1)
        | (Except.error e, n) => (Except.error e, n + 1)) := by
  simp only [processBatches, hr, if_neg ht]

theorem processBatches_ok_strip (responses : Nat → Except String String) :
    ∀ (bs : List (List SubtitleEntry)) (k : Nat) (out : List SubtitleEntry) (n : Nat),
      processBatches responses bs k = (Except.ok out, n) →
        out.map stripText = bs.flatten.map stripText := by
  intro bs
  induction bs with
  | nil =>
    intro k out n h
    simp only [processBatches, Prod.mk.injEq, Except.ok.injEq] at h
    rw [← h.1]
    rfl
  | cons b rest ih =>
    intro k out n h
    cases hr : responses k with
    | error e =>
      rw [processBatches_cons_err responses b rest k e hr] at h
      simp at h
    | ok t =>
      by_cases ht : t = ""
      · subst ht
        rw [processBatches_cons_empty responses b rest k hr] at h
        simp at h
      · rw [processBatches_cons_ok responses b rest k t ht hr] at h
        cases hrec : processBatches responses rest (k + 1) with
        | mk res n' =>
          rw [hrec] at h
          cases res with
          | error e => simp at h
          | ok tail =>
            simp only [Prod.mk.injEq, Except.ok.injEq] at h
            rw [← h.1]
            simp only [List.flatten_cons, List.map_append]
            rw [safeBatch_strip b (fixedLinesMap t), ih (k + 1) tail n' hrec]

theorem processSrt_ok_strip (srtArray : List SubtitleEntry)
    (responses : Nat → Except String String) (out : List SubtitleEntry) (n : Nat)
    (h : processSrt srtArray responses = (Except.ok out, n)) :
    out.map stripText = srtArray.map stripText := by
  unfold processSrt at h
  by_cases hz : srtArray.length = 0
  · rw [if_pos hz] at h; simp at h
  · rw [if_neg hz] at h
    have := processBatches_ok_strip responses (chunks BATCH_SIZE srtArray) 0 out n h
    rw [this, chunks_flatten BATCH_SIZE (by decide) srtArray]

theorem retryGo_attempts_le (outcomes : Nat → Outcome) (retries : Nat) :
    ∀ (rem i : Nat), (callGeminiWithRetryGo outcomes retries i rem).attempts ≤ rem := by
  intro rem
  induction rem with
  | zero => intro i; simp [callGeminiWithRetryGo]
  | succ rem ih =>
    intro i
    cases ho : outcomes i with
    | success t => simp [callGeminiWithRetryGo, ho]
    | rateLimited =>
      by_cases hl : i = retries - 1
      · simp [callGeminiWithRetryGo, ho, if_pos hl]
      · simp only [callGeminiWithRetryGo, ho, if_neg hl]
        have := ih (i + 1)
        omega
    | overloaded =>
      simp only [callGeminiWithRetryGo, ho]
      have := ih (i + 1)
      omega
    | httpError code msg =>
      by_cases hl : i = retries - 1
      · simp [callGeminiWithRetryGo, ho, if_pos hl]
      · simp only [callGeminiWithRetryGo, ho, if_neg hl]
        have := ih (i + 1)
        omega
    | refused reason =>
      by_cases hl : i = retries - 1
      · simp [callGeminiWithRetryGo, ho, if_pos hl]
      · simp only [callGeminiWithRetryGo, ho, if_neg hl]
        have := ih (i + 1)
        omega
    | netError msg =>
      by_cases hl : i = retries - 1
      · simp [callGeminiWithRetryGo, ho, if_pos hl]
      · simp only [callGeminiWithRetryGo, ho, if_neg hl]
        have := ih (i + 1)
        omega

theorem retryGoP0_attempts_le (outcomes : Nat → Outcome) (retries : Nat) :
    ∀ (rem i : Nat), (callGeminiWithRetryP0Go outcomes retries i rem).attempts ≤ rem := by
  intro rem
  induction rem with
  | zero => intro i; simp [callGeminiWithRetryP0Go]
  | succ rem ih =>
    intro i
    cases ho : outcomes i with
    | success t => simp [callGeminiWithRetryP0Go, ho]
    | rateLimited =>
      simp only [callGeminiWithRetryP0Go, ho]
      have := ih (i + 1)
      omega
    | overloaded =>
      simp only [callGeminiWithRetryP0Go, ho]
      have := ih (i + 1)
      omega
    | httpError code msg =>
      by_cases hl : i = retries - 1
      · simp [callGeminiWithRetryP0Go, ho, if_pos hl]
      · simp only [callGeminiWithRetryP0Go, ho, if_neg hl]
        have := ih (i + 1)
        omega
    | refused reason =>
      by_cases hl : i = retries - 1
      · simp [callGeminiWithRetryP0Go, ho, if_pos hl]
      · simp only [callGeminiWithRetryP0Go, ho, if_neg hl]
        have := ih (i + 1)
        omega
    | netError msg =>
      by_cases hl : i = retries - 1
      · simp [callGeminiWithRetryP0Go, ho, if_pos hl]
      · simp only [callGeminiWithRetryP0Go, ho, if_neg hl]
        have := ih (i + 1)
        omega

theorem retryGo_ok_success (outcomes : Nat → Outcome) (retries : Nat) :
    ∀ (rem i : Nat) (t : String),
      (callGeminiWithRetryGo outcomes retries i rem).result = Except.ok (some t) →
        ∃ j, i ≤ j ∧ j < i + rem ∧ outcomes j = Outcome.success (some t) := by
  intro rem
  induction rem with
  | zero => intro i t h; simp [callGeminiWithRetryGo] at h
  | succ rem ih =>
    intro i t h
    cases ho : outcomes i with
    | success t' =>
      simp [callGeminiWithRetryGo, ho] at h
      exact ⟨i, le_refl i, by omega, by rw [ho, h]⟩
    | rateLimited =>
      by_cases hl : i = retries - 1
      · simp [callGeminiWithRetryGo, ho, if_pos hl] at h
      · simp only [callGeminiWithRetryGo, ho, if_neg hl] at h
        obtain ⟨j, hj1, hj2, hj3⟩ := ih (i + 1) t h
        exact ⟨j, by omega, by omega, hj3⟩
    | overloaded =>
      simp only [callGeminiWithRetryGo, ho] at h
      obtain ⟨j, hj1, hj2, hj3⟩ := ih (i + 1) t h
      exact ⟨j, by omega, by omega, hj3⟩
    | httpError code msg =>
      by_cases hl : i = retries - 1
      · simp [callGeminiWithRetryGo, ho, if_pos hl] at h
      · simp only [callGeminiWithRetryGo, ho, if_neg hl] at h
        obtain ⟨j, hj1, hj2, hj3⟩ := ih (i + 1) t h
        exact ⟨j, by omega, by omega, hj3⟩
    | refused reason =>
      by_cases hl : i = retries - 1
      · simp [callGeminiWithRetryGo, ho, if_pos hl] at h
      · simp only [callGeminiWithRetryGo, ho, if_neg hl] at h
        obtain ⟨j, hj1, hj2, hj3⟩ := ih (i + 1) t h
        exact ⟨j, by omega, by omega, hj3⟩
    | netError msg =>
      by_cases hl : i = retries - 1
      · simp [callGeminiWithRetryGo, ho, if_pos hl] at h
      · simp only [callGeminiWithRetryGo, ho, if_neg hl] at h
        obtain ⟨j, hj1, hj2, hj3⟩ := ih (i + 1) t h
        exact ⟨j, by omega, by omega, hj3⟩

theorem retryGoP0_ok_success (outcomes : Nat → Outcome) (retries : Nat) :
    ∀ (rem i : Nat) (t : String),
      (callGeminiWithRetryP0Go outcomes retries i rem).result = Except.ok (some t) →
        ∃ j, i ≤ j ∧ j < i + rem ∧ outcomes j = Outcome.success (some t) := by
  intro rem
  induction rem with
  | zero => intro i t h; simp [callGeminiWithRetryP0Go] at h
  | succ rem ih =>
    intro i t h
    cases ho : outcomes i with
    | success t' =>
      simp [callGeminiWithRetryP0Go, ho] at h
      exact ⟨i, le_refl i, by omega, by rw [ho, h]⟩
    | rateLimited =>
      simp only [callGeminiWithRetryP0Go, ho] at h
      obtain ⟨j, hj1, hj2, hj3⟩ := ih (i + 1) t h
      exact ⟨j, by omega, by omega, hj3⟩
    | overloaded =>
      simp only [callGeminiWithRetryP0Go, ho] at h
      obtain ⟨j, hj1, hj2, hj3⟩ := ih (i + 1) t h
      exact ⟨j, by omega, by omega, hj3⟩
    | httpError code msg =>
      by_cases hl : i = retries - 1
      · simp [callGeminiWithRetryP0Go, ho, if_pos hl] at h
      · simp only [callGeminiWithRetryP0Go, ho, if_neg hl] at h
        obtain ⟨j, hj1, hj2, hj3⟩ := ih (i + 1) t h
        exact ⟨j, by omega, by omega, hj3⟩
    | refused reason =>
      by_cases hl : i = retries - 1
      · simp [callGeminiWithRetryP0Go, ho, if_pos hl] at h
      · simp only [callGeminiWithRetryP0Go, ho, if_neg hl] at h
        obtain ⟨j, hj1, hj2, hj3⟩ := ih (i + 1) t h
        exact ⟨j, by omega, by omega, hj3⟩
    | netError msg =>
      by_cases hl : i = retries - 1
      · simp [callGeminiWithRetryP0Go, ho, if_pos hl] at h
      · simp only [callGeminiWithRetryP0Go, ho, if_neg hl] at h
        obtain ⟨j, hj1, hj2, hj3⟩ := ih (i + 1) t h
        exact ⟨j, by omega, by omega, hj3⟩

theorem retryGo_sleep_of_rateLimited (outcomes : Nat → Outcome) (retries : Nat) :
    ∀ (rem i j d : Nat), (j, d) ∈ (callGeminiWithRetryGo outcomes retries i rem).sleeps →
      outcomes j = Outcome.rateLimited → d = 20000 + j * 10000 := by
  intro rem
  induction rem with
  | zero => intro i j d h _; simp [callGeminiWithRetryGo] at h
  | succ rem ih =>
    intro i j d h hj
    cases ho : outcomes i with
    | success t => simp [callGeminiWithRetryGo, ho] at h
    | rateLimited =>
      by_cases hl : i = retries - 1
      · simp [callGeminiWithRetryGo, ho, if_pos hl] at h
        omega
      · simp only [callGeminiWithRetryGo, ho, if_neg hl, List.mem_cons] at h
        rcases h with h | h
        · simp only [Prod.mk.injEq] at h
          omega
        · exact ih (i + 1) j d h hj
    | overloaded =>
      simp only [callGeminiWithRetryGo, ho, List.mem_cons] at h
      rcases h with h | h
      · simp only [Prod.mk.injEq] at h
        rw [h.1] at hj
        rw [hj] at ho
        exact absurd ho (by simp)
      · exact ih (i + 1) j d h hj
    | httpError code msg =>
      by_cases hl : i = retries - 1
      · simp [callGeminiWithRetryGo, ho, if_pos hl] at h
      · simp only [callGeminiWithRetryGo, ho, if_neg hl, List.mem_cons] at h
        rcases h with h | h
        · simp only [Prod.mk.injEq] at h
          rw [h.1] at hj
          rw [hj] at ho
          exact absurd ho (by simp)
        · exact ih (i + 1) j d h hj
    | refused reason =>
      by_cases hl : i = retries - 1
      · simp [callGeminiWithRetryGo, ho, if_pos hl] at h
      · simp only [callGeminiWithRetryGo, ho, if_neg hl, List.mem_cons] at h
        rcases h with h | h
        · simp only [Prod.mk.injEq] at h
          rw [h.1] at hj
          rw [hj] at ho
          exact absurd ho (by simp)
        · exact ih (i + 1) j d h hj
    | netError msg =>
      by_cases hl : i = retries - 1
      · simp [callGeminiWithRetryGo, ho, if_pos hl] at h
      · simp only [callGeminiWithRetryGo, ho, if_neg hl, List.mem_cons] at h
        rcases h with h | h
        · simp only [Prod.mk.injEq] at h
          rw [h.1] at hj
          rw [hj] at ho
          exact absurd ho (by simp)
        · exact ih (i + 1) j d h hj

theorem retryGoP0_sleep_of_rateLimited (outcomes : Nat → Outcome) (retries : Nat) :
    ∀ (rem i j d : Nat), (j, d) ∈ (callGeminiWithRetryP0Go outcomes retries i rem).sleeps →
      outcomes j = Outcome.rateLimited → d = 20000 := by
  intro rem
  induction rem with
  | zero => intro i j d h _; simp [callGeminiWithRetryP0Go] at h
  | succ rem ih =>
    intro i j d h hj
    cases ho : outcomes i with
    | success t => simp [callGeminiWithRetryP0Go, ho] at h
    | rateLimited =>
      simp only [callGeminiWithRetryP0Go, ho, List.mem_cons] at h
      rcases h with h | h
      · simp only [Prod.mk.injEq] at h
        omega
      · exact ih (i + 1) j d h hj
    | overloaded =>
      simp only [callGeminiWithRetryP0Go, ho, List.mem_cons] at h
      rcases h with h | h
      · simp only [Prod.mk.injEq] at h
        rw [h.1] at hj
        rw [hj] at ho
        exact absurd ho (by simp)
      · exact ih (i + 1) j d h hj
    | httpError code msg =>
      by_cases hl : i = retries - 1
      · simp [callGeminiWithRetryP0Go, ho, if_pos hl] at h
      · simp only [callGeminiWithRetryP0Go, ho, if_neg hl, List.mem_cons] at h
        rcases h with h | h
        · simp only [Prod.mk.injEq] at h
          rw [h.1] at hj
          rw [hj] at ho
          exact absurd ho (by simp)
        · exact ih (i + 1) j d h hj
    | refused reason =>
      by_cases hl : i = retries - 1
      · simp [callGeminiWithRetryP0Go, ho, if_pos hl] at h
      · simp only [callGeminiWithRetryP0Go, ho, if_neg hl, List.mem_cons] at h
        rcases h with h | h
        · simp only [Prod.mk.injEq] at h
          rw [h.1] at hj
          rw [hj] at ho
          exact absurd ho (by simp)
        · exact ih (i + 1) j d h hj
    | netError msg =>
      by_cases hl : i = retries - 1
      · simp [callGeminiWithRetryP0Go, ho, if_pos hl] at h
      · simp only [callGeminiWithRetryP0Go, ho, if_neg hl, List.mem_cons] at h
        rcases h with h | h
        · simp only [Prod.mk.injEq] at h
          rw [h.1] at hj
          rw [hj] at ho
          exact absurd ho (by simp)
        · exact ih (i + 1) j d h hj

theorem safeBatchGo_congr (m1 m2 : String → Option String) :
    ∀ (b : List SubtitleEntry) (s : Nat),
      (∀ idx, idx < b.length → m1 (toString (s + idx + 1)) = m2 (toString (s + idx + 1))) →
      safeBatchGo m1 s b = safeBatchGo m2 s b := by
  intro b
  induction b with
  | nil => intro s _; rfl
  | cons item rest ih =>
    intro s hagree
    simp only [safeBatchGo]
    have h0 := hagree 0 (by simp)
    rw [show s + 0 + 1 = s + 1 from by omega] at h0
    rw [h0]
    congr 1
    apply ih (s + 1)
    intro idx hlt
    have h1 := hagree (idx + 1) (by simp only [List.length_cons]; omega)
    rw [show s + (idx + 1) + 1 = s + 1 + idx + 1 from by omega] at h1
    exact h1

/-- C1: for every batch and every raw model response text — fully
successful, partially malformed, or entirely unparseable — the reconciled
batch produced by the `safeBatch` merge has exactly as many entries as the
original batch, and consequently a completed run's output sequence has
exactly as many entries as the decoded input sequence. -/
theorem merge_count_invariant :
    (∀ (batch : List SubtitleEntry) (resp : String),
      (safeBatch batch (fixedLinesMap resp)).length = batch.length) ∧
    (∀ (srtArray : List SubtitleEntry) (responses : Nat → Except String String)
      (out : List SubtitleEntry) (n : Nat),
      processSrt srtArray responses = (Except.ok out, n) →
        out.length = srtArray.length) := by
  constructor
  · intro batch resp
    exact safeBatch_length batch (fixedLinesMap resp)
  · intro srtArray responses out n h
    have hlen := congrArg List.length (processSrt_ok_strip srtArray responses out n h)
    simpa using hlen

/-- Witness for C1 on a two-entry file whose response corrects only the
first entry. -/
theorem merge_count_invariant_witness :
    processSrt [sampleA, sampleB] (fun _ => Except.ok "1>>>改一") =
      (Except.ok [{ sampleA with text := "改一" }, sampleB], 1) ∧
    ([{ sampleA with text := "改一" }, sampleB] : List SubtitleEntry).length =
      ([sampleA, sampleB] : List SubtitleEntry).length := by
  have h : processSrt [sampleA, sampleB] (fun _ => Except.ok "1>>>改一") =
      (Except.ok [{ sampleA with text := "改一" }, sampleB], 1) := by rfl
  exact ⟨h, merge_count_invariant.2 [sampleA, sampleB] (fun _ => Except.ok "1>>>改一")
    [{ sampleA with text := "改一" }, sampleB] 1 h⟩

/-- C2: if the correction map parsed from the response has no entry under
the stringified 1-based local index, the merge is a no-op on that entry —
the output entry (text included) is the original one verbatim. -/
theorem merge_fallback_law (batch : List SubtitleEntry) (resp : String) (idx : Nat)
    (h : fixedLinesMap resp (toString (idx + 1)) = none) :
    (safeBatch batch (fixedLinesMap resp)).get? idx = batch.get? idx := by
  unfold safeBatch
  rw [safeBatchGo_get? (fixedLinesMap resp) batch 0 idx]
  simp only [Nat.zero_add]
  rw [h]
  cases hb : batch.get? idx with
  | none => rfl
  | some item => rfl

/-- Witness for C2: the response corrects local index 2 only, so entry 1
is passed through unchanged. -/
theorem merge_fallback_law_witness :
    fixedLinesMap "2>>>改二" (toString (0 + 1)) = none ∧
    (safeBatch [sampleA] (fixedLinesMap "2>>>改二")).get? 0 =
      ([sampleA] : List SubtitleEntry).get? 0 :=
  ⟨by decide, merge_fallback_law [sampleA] "2>>>改二" 0 (by decide)⟩

/-- Counterexample to C3: the response line `"1>>>"` puts the empty
string into the correction map under key `"1"`, yet the output entry keeps
its original text instead of taking that map entry — the JS `||` treats
the empty string as falsy. -/
theorem merge_uses_map_entry_cex :
    fixedLinesMap "1>>>" (toString (0 + 1)) = some "" ∧
    (safeBatch [sampleA] (fixedLinesMap "1>>>")).get? 0 = some sampleA ∧
    sampleA.text ≠ "" :=
  ⟨by decide, by decide, by decide⟩

/-- C3 as amended: if the correction map contains a NON-EMPTY entry under
the stringified 1-based local index, the output entry at that position
takes exactly that entry as its text; an empty-string entry falls back to
the original text (see the counterexample). -/
theorem merge_uses_nonempty_map_entry (batch : List SubtitleEntry) (resp : String)
    (idx : Nat) (t : String) (hlt : idx < batch.length)
    (hm : fixedLinesMap resp (toString (idx + 1)) = some t) (ht : t ≠ "") :
    ∃ e, (safeBatch batch (fixedLinesMap resp)).get? idx = some e ∧ e.text = t := by
  unfold safeBatch
  rw [safeBatchGo_get? (fixedLinesMap resp) batch 0 idx]
  simp only [Nat.zero_add]
  rw [hm]
  cases hb : batch.get? idx with
  | none =>
    have := List.get?_eq_none.mp hb
    omega
  | some item =>
    refine ⟨{ item with text := t }, ?_, rfl⟩
    simp [jsOrElse, ht]

/-- Witness for amended C3: `"1>>>改一"` corrects entry 1. -/
theorem merge_uses_nonempty_map_entry_witness :
    (0 < ([sampleA] : List SubtitleEntry).length ∧
      fixedLinesMap "1>>>改一" (toString (0 + 1)) = some "改一" ∧ ("改一" : String) ≠ "") ∧
    ∃ e, (safeBatch [sampleA] (fixedLinesMap "1>>>改一")).get? 0 = some e ∧
      e.text = "改一" :=
  ⟨⟨by decide, by decide, by decide⟩,
    merge_uses_nonempty_map_entry [sampleA] "1>>>改一" 0 "改一"
      (by decide) (by decide) (by decide)⟩

/-- C4: on a completed run the output entry at each global position
corresponds to the input entry at that position — every field other than
`text` (id and both timing fields) is unchanged and the order is exactly
the original (stated as equality of the text-erased sequences). -/
theorem order_frame_invariant (srtArray : List SubtitleEntry)
    (responses : Nat → Except String String) (out : List SubtitleEntry) (n : Nat)
    (h : processSrt srtArray responses = (Except.ok out, n)) :
    out.map stripText = srtArray.map stripText ∧ out.length = srtArray.length := by
  have hs := processSrt_ok_strip srtArray responses out n h
  refine ⟨hs, ?_⟩
  have hlen := congrArg List.length hs
  simpa using hlen

/-- Witness for C4: correcting entry 2 leaves id and timing fields of
both entries untouched and in order. -/
theorem order_frame_invariant_witness :
    processSrt [sampleA, sampleB] (fun _ => Except.ok "2>>>改二") =
      (Except.ok [sampleA, { sampleB with text := "改二" }], 1) ∧
    ([sampleA, { sampleB with text := "改二" }] : List SubtitleEntry).map stripText =
        ([sampleA, sampleB] : List SubtitleEntry).map stripText ∧
      ([sampleA, { sampleB with text := "改二" }] : List SubtitleEntry).length =
        ([sampleA, sampleB] : List SubtitleEntry).length := by
  have h : processSrt [sampleA, sampleB] (fun _ => Except.ok "2>>>改二") =
      (Except.ok [sampleA, { sampleB with text := "改二" }], 1) := by rfl
  exact ⟨h, order_frame_invariant [sampleA, sampleB] (fun _ => Except.ok "2>>>改二")
    [sampleA, { sampleB with text := "改二" }] 1 h⟩

/-- C9: a decoded subtitle source with zero entries makes the run fail
with the empty-input error (`"SRT 文件为空"`) and the invoker-call counter
is 0 — no network call is ever made. -/
theorem empty_input_no_network (srtArray : List SubtitleEntry)
    (responses : Nat → Except String String) (h : srtArray.length = 0) :
    processSrt srtArray responses = (Except.error "SRT 文件为空", 0) := by
  unfold processSrt
  rw [if_pos h]

/-- Witness for C9 on the empty entry list. -/
theorem empty_input_no_network_witness :
    ([] : List SubtitleEntry).length = 0 ∧
    processSrt [] (fun _ => Except.ok "1>>>x") = (Except.error "SRT 文件为空", 0) :=
  ⟨rfl, empty_input_no_network [] (fun _ => Except.ok "1>>>x") rfl⟩

/-- C10: a parsed response line whose trimmed index portion is not the
decimal string of any local index `1 .. L` (such as `"0"`, `"999"`,
`"03"`, or a non-numeric key) is recorded in the correction map by the
same `mapInsert` assignment as any other line, but has no effect on the
merged output: `safeBatch` only ever looks up the keys
`toString 1 .. toString L`.  Such lines can neither corrupt nor add
entries. -/
theorem out_of_range_keys_no_effect (batch : List SubtitleEntry)
    (m : String → Option String) (key v : String)
    (hkey : key ∉ (List.range batch.length).map (fun idx => toString (idx + 1))) :
    mapInsert m key v key = some v ∧
    safeBatch batch (mapInsert m key v) = safeBatch batch m := by
  constructor
  · simp [mapInsert]
  · unfold safeBatch
    apply safeBatchGo_congr
    intro idx hlt
    simp only [Nat.zero_add]
    simp only [List.mem_map, List.mem_range, not_exists, not_and] at hkey
    unfold mapInsert
    rw [if_neg]
    intro hc
    exact hkey idx hlt hc

/-- Witness for C10: the key `"999"` is recorded but changes nothing on a
one-entry batch. -/
theorem out_of_range_keys_no_effect_witness :
    ("999" ∉ (List.range ([sampleA] : List SubtitleEntry).length).map
        (fun idx => toString (idx + 1))) ∧
    mapInsert (fun _ => none) "999" "junk" "999" = some "junk" ∧
    safeBatch [sampleA] (mapInsert (fun _ => none) "999" "junk") =
      safeBatch [sampleA] (fun _ => none) := by
  have h := out_of_range_keys_no_effect [sampleA] (fun _ => none) "999" "junk" (by decide)
  exact ⟨by decide, h.1, h.2⟩

/-- Counterexample to C5: for the response line `"3>>> a"` the code
records `"a"` — the portion after the first separator additionally
TRIMMED — whereas the claim says it records everything after the first
occurrence verbatim, which would be `" a"`. -/
theorem reconciler_text_trimmed_cex :
    fixedLinesMap "3>>> a" "3" = some "a" ∧ ("a" : String) ≠ " a" :=
  ⟨by decide, by decide⟩

/-- C5 as amended: for every response line containing the separator, the
reconciler splits at the FIRST occurrence, uses the trimmed portion before
it as the index key, and records as corrected text the portion after it
with any additional separator occurrences rejoined verbatim and the result
trimmed of leading/trailing whitespace; in particular `"3>>>a>>>b"` yields
corrected text `"a>>>b"` for local index 3. -/
theorem reconciler_first_split_trimmed :
    (∀ (m : String → Option String) (line : String) (b r : List Char),
      splitFirstC (">>>".data) line.data = some (b, r) →
        parseLine m line = mapInsert m (jsTrim (String.mk b)) (jsTrim (String.mk r))) ∧
    fixedLinesMap "3>>>a>>>b" "3" = some "a>>>b" := by
  constructor
  · intro m line b r hsf
    have hinc : jsIncludes line ">>>" = true := by
      unfold jsIncludes
      rw [hsf]
      rfl
    unfold parseLine
    rw [if_pos hinc]
    have hsplit : jsSplit line ">>>" =
        (b :: splitSepGo (">>>".data) r.length r).map String.mk := by
      unfold jsSplit
      rw [if_neg (by decide : ¬(">>>" : String) = "")]
      rw [splitSepGo_splitFirstC (">>>".data) (by decide) line.data.length line.data b r
        (le_refl _) hsf]
    rw [hsplit]
    simp only [List.map_cons, List.headD_cons, List.drop_succ_cons, List.drop_zero]
    have hjoin : jsJoin ">>>" ((splitSepGo (">>>".data) r.length r).map String.mk) =
        String.mk r := by
      unfold jsJoin
      rw [List.map_map]
      rw [show String.data ∘ String.mk = id from rfl, List.map_id]
      rw [joinSepC_splitSepGo (">>>".data) (by decide) r.length r (le_refl _)]
    rw [hjoin]
  · decide

/-- Witness for amended C5 at the line `"3>>> a>>>b"`: the key is the
trimmed `"3"` and the text is `"a>>>b"` — split at the first separator,
the second separator rejoined, then trimmed. -/
theorem reconciler_first_split_trimmed_witness :
    splitFirstC (">>>".data) ("3>>> a>>>b" : String).data =
      some (("3" : String).data, (" a>>>b" : String).data) ∧
    parseLine (fun _ => none) "3>>> a>>>b" =
      mapInsert (fun _ => none) (jsTrim (String.mk ("3" : String).data))
        (jsTrim (String.mk (" a>>>b" : String).data)) :=
  ⟨by decide, reconciler_first_split_trimmed.1 (fun _ => none) "3>>> a>>>b"
    ("3" : String).data (" a>>>b" : String).data (by decide)⟩

/-- C6: for every positive batch size `B` and every decoded entry list,
the orchestrator's partition consists of `ceil(N/B)` contiguous batches
that concatenate back to the input exactly (covering it once without
overlap); every batch except possibly the last has exactly `B` entries,
and the last has `N mod B` entries (`B` when `B` divides `N`). -/
theorem batch_partition_law (B : Nat) (hB : 0 < B) (l : List SubtitleEntry) :
    (chunks B l).length = (l.length + B - 1) / B ∧
    (chunks B l).flatten = l ∧
    (∀ c ∈ (chunks B l).dropLast, c.length = B) ∧
    (l ≠ [] → ((chunks B l).getLast?).map List.length =
      some (if l.length % B = 0 then B else l.length % B)) :=
  ⟨chunksGo_length B hB l.length l (le_refl _),
    chunksGo_join B hB l.length l (le_refl _),
    chunksGo_dropLast B hB l.length l (le_refl _),
    fun hne => chunksGo_getLast B hB l.length l hne (le_refl _)⟩

/-- Witness for C6: 10 entries at batch size 4 give 3 batches of sizes
4, 4 and 2 (the spec scenario). -/
theorem batch_partition_law_witness :
    (0 : Nat) < 4 ∧
    (chunks 4 (List.replicate 10 sampleA)).length = 3 ∧
    (chunks 4 (List.replicate 10 sampleA)).flatten = List.replicate 10 sampleA ∧
    (∀ c ∈ (chunks 4 (List.replicate 10 sampleA)).dropLast, c.length = 4) ∧
    (List.replicate 10 sampleA ≠ [] →
      ((chunks 4 (List.replicate 10 sampleA)).getLast?).map List.length = some 2) := by
  have h := batch_partition_law 4 (by decide) (List.replicate 10 sampleA)
  exact ⟨by decide, h.1, h.2.1, h.2.2.1, h.2.2.2⟩

/-- Counterexample to C7: in the `src/unnamed/part_000` variant, when all
three attempts of a call are rate-limited, the retry loop runs out of
iterations via `continue` and the function returns normally with
`undefined` (modelled `Except.ok none`) — no terminal error is raised and
no generated text is produced, although it did make its 3 attempts. -/
theorem invoker_terminal_error_cex :
    (callGeminiWithRetryP0 (fun _ => Outcome.rateLimited) 3).result = Except.ok none ∧
    (callGeminiWithRetryP0 (fun _ => Outcome.rateLimited) 3).attempts = 3 ∧
    (∀ e : String,
      (callGeminiWithRetryP0 (fun _ => Outcome.rateLimited) 3).result ≠ Except.error e) := by
  have hres : (callGeminiWithRetryP0 (fun _ => Outcome.rateLimited) 3).result =
      Except.ok none := rfl
  exact ⟨hres, rfl, fun e h => Except.noConfusion (hres ▸ h)⟩

/-- C7 as amended: both invoker variants make at most the configured
number of attempts, and a normal return carrying a generated text implies
some attempt succeeded with exactly that text.  Neither variant, however,
always raises a terminal error when no attempt yields a text: the
`src/src/App.js` invoker returns normally with `undefined` when a 2xx
body passes its `candidates`/`content`/`parts` check but the first part
carries no `text` field (last conjunct), and the `part_000` invoker
additionally returns `undefined` when its final attempt takes the
rate-limit or overload `continue` branch — see the counterexample. -/
theorem retry_bound_and_terminal (outcomes : Nat → Outcome) (retries : Nat) :
    (callGeminiWithRetry outcomes retries).attempts ≤ retries ∧
    (callGeminiWithRetryP0 outcomes retries).attempts ≤ retries ∧
    (∀ t, (callGeminiWithRetry outcomes retries).result = Except.ok (some t) →
      ∃ j, j < retries ∧ outcomes j = Outcome.success (some t)) ∧
    (∀ t, (callGeminiWithRetryP0 outcomes retries).result = Except.ok (some t) →
      ∃ j, j < retries ∧ outcomes j = Outcome.success (some t)) ∧
    (0 < retries →
      (callGeminiWithRetry (fun _ => Outcome.success none) retries).result =
        Except.ok none) := by
  refine ⟨retryGo_attempts_le outcomes retries retries 0,
    retryGoP0_attempts_le outcomes retries retries 0, ?_, ?_, ?_⟩
  · intro t h
    obtain ⟨j, hj1, hj2, hj3⟩ := retryGo_ok_success outcomes retries retries 0 t h
    exact ⟨j, by omega, hj3⟩
  · intro t h
    obtain ⟨j, hj1, hj2, hj3⟩ := retryGoP0_ok_success outcomes retries retries 0 t h
    exact ⟨j, by omega, hj3⟩
  · intro hpos
    cases retries with
    | zero => omega
    | succ n => rfl

/-- Witness for amended C7: two rate-limited attempts followed by a
success on attempt 3 of 5 return that text within the attempt bound, and
a run of text-less success bodies returns `undefined` normally. -/
theorem retry_bound_and_terminal_witness :
    ((callGeminiWithRetry
        (fun i => if i = 2 then Outcome.success (some "好") else Outcome.rateLimited) 5).result
        = Except.ok (some "好")) ∧
    ((callGeminiWithRetry
        (fun i => if i = 2 then Outcome.success (some "好") else Outcome.rateLimited) 5).attempts
        ≤ 5) ∧
    (∃ j, j < 5 ∧
      (if j = 2 then Outcome.success (some "好") else Outcome.rateLimited) =
        Outcome.success (some "好")) ∧
    (callGeminiWithRetry (fun _ => Outcome.success none) 5).result = Except.ok none := by
  have h := retry_bound_and_terminal
    (fun i => if i = 2 then Outcome.success (some "好") else Outcome.rateLimited) 5
  exact ⟨rfl, h.1, h.2.2.1 "好" rfl, h.2.2.2.2 (by omega)⟩

/-- Counterexample to C8: in the `src/unnamed/part_000` variant the sleep
after every rate-limited attempt is the constant 20000 ms — attempts 0 and
1 of the same call are both rate-limited yet their backoffs are equal, not
strictly increasing. -/
theorem backoff_monotone_cex :
    (0, 20000) ∈ (callGeminiWithRetryP0 (fun _ => Outcome.rateLimited) 3).sleeps ∧
    (1, 20000) ∈ (callGeminiWithRetryP0 (fun _ => Outcome.rateLimited) 3).sleeps ∧
    ¬ (20000 : Nat) < 20000 :=
  ⟨by decide, by decide, by decide⟩

/-- C8 as amended: in the `src/src/App.js` variant the 429 backoff is
`20000 + i * 10000` ms, so for any two rate-limited attempts of the same
call the later one sleeps strictly longer; the `part_000` variant instead
sleeps the constant 20000 ms after every rate-limited attempt (see the
counterexample). -/
theorem backoff_monotone (outcomes : Nat → Outcome) (retries : Nat) :
    (∀ j k dj dk, (j, dj) ∈ (callGeminiWithRetry outcomes retries).sleeps →
      (k, dk) ∈ (callGeminiWithRetry outcomes retries).sleeps →
      outcomes j = Outcome.rateLimited → outcomes k = Outcome.rateLimited →
      j < k → dj < dk) ∧
    (∀ j d, (j, d) ∈ (callGeminiWithRetryP0 outcomes retries).sleeps →
      outcomes j = Outcome.rateLimited → d = 20000) := by
  constructor
  · intro j k dj dk hj hk hoj hok hjk
    have h1 := retryGo_sleep_of_rateLimited outcomes retries retries 0 j dj hj hoj
    have h2 := retryGo_sleep_of_rateLimited outcomes retries retries 0 k dk hk hok
    omega
  · intro j d hd hoj
    exact retryGoP0_sleep_of_rateLimited outcomes retries retries 0 j d hd hoj

/-- Witness for amended C8: with every attempt rate-limited in the
`src/src/App.js` variant, the backoff after attempt 1 (30000 ms) is
strictly longer than after attempt 0 (20000 ms). -/
theorem backoff_monotone_witness :
    ((0, 20000) ∈ (callGeminiWithRetry (fun _ => Outcome.rateLimited) 5).sleeps ∧
      (1, 30000) ∈ (callGeminiWithRetry (fun _ => Outcome.rateLimited) 5).sleeps) ∧
    (20000 : Nat) < 30000 := by
  have h := (backoff_monotone (fun _ => Outcome.rateLimited) 5).1 0 1 20000 30000
    (by decide) (by decide) rfl rfl (by decide)
  exact ⟨⟨by decide, by decide⟩, h⟩

end Subcorr
